import Mathlib

/-!
Verification of the social-graph generator and its analytic queries
(`chapter02_data_models/`: `neo4j_social.py`, `postgres.py`, `mongodb.py`).

User keys are modelled as natural numbers (standing for UUID strings or
sequential integer ids); a follow graph is a list of directed edges
`(follower, followee)`.  Randomness (`random.randint`, `random.sample`,
name drawing) is modelled by explicit oracle functions whose properties
(the guarantees of the Python library calls) appear as hypotheses.
-/

/-- In-degree of `u`: the number of `FOLLOWS` relationships into `u`
(the Cypher `size( (follower)<-[:FOLLOWS]-() )` of `_get_influential_followers`). -/
def inDegree (edges : List (Nat × Nat)) (u : Nat) : Nat :=
  (edges.filter (fun e => e.2 == u)).length

/-- Embedding of `_get_friends_of_friends` (neo4j_social.py lines 194-202):
`MATCH (u {uuid})-[:FOLLOWS]->(friend)-[:FOLLOWS]->(fof)
 WHERE u <> fof AND NOT (u)-[:FOLLOWS]->(fof) RETURN DISTINCT fof`.
The two-hop targets are enumerated in match order and `DISTINCT` is
deduplication. -/
def friendsOfFriends (edges : List (Nat × Nat)) (u : Nat) : List Nat :=
  ((((edges.filter (fun e => e.1 == u)).flatMap
      (fun e => (edges.filter (fun e2 => e2.1 == e.2)).map Prod.snd)).filter
    (fun w => w != u && !(decide ((u, w) ∈ edges))))).dedup

example : friendsOfFriends [(0,1),(0,2),(1,3),(2,3),(2,4)] 0 = [3, 4] := by decide

/-- C1: `friends_of_friends(u)` is exactly the set of `w` reachable in two
hops from `u`, excluding `u` itself and the direct followees of `u`; each
such `w` appears exactly once; on the graph A→B, A→C, B→D, C→D, C→E
(A,…,E as 0,…,4) the result for A is `{D, E}`. -/
theorem friendsOfFriends_correct :
    (∀ (edges : List (Nat × Nat)) (u w : Nat),
      w ∈ friendsOfFriends edges u ↔
        ((∃ v, (u, v) ∈ edges ∧ (v, w) ∈ edges) ∧ w ≠ u ∧ (u, w) ∉ edges))
    ∧ (∀ (edges : List (Nat × Nat)) (u : Nat), (friendsOfFriends edges u).Nodup)
    ∧ friendsOfFriends [(0,1),(0,2),(1,3),(2,3),(2,4)] 0 = [3, 4] := by
  refine ⟨?_, ?_, by decide⟩
  · intro edges u w
    simp only [friendsOfFriends, List.mem_dedup, List.mem_filter, List.mem_flatMap,
      List.mem_map, Bool.and_eq_true, bne_iff_ne, ne_eq, Bool.not_eq_true',
      decide_eq_false_iff_not, beq_iff_eq]
    constructor
    · rintro ⟨⟨e1, ⟨he1, hfst⟩, t, ⟨ht, htfst⟩, rfl⟩, hne, hmem⟩
      refine ⟨⟨e1.2, ?_, ?_⟩, hne, hmem⟩
      · rw [← hfst]; simpa using he1
      · rw [← htfst]; simpa using ht
    · rintro ⟨⟨v, huv, hvw⟩, hne, hmem⟩
      exact ⟨⟨(u, v), ⟨huv, rfl⟩, (v, w), ⟨hvw, rfl⟩, rfl⟩, hne, hmem⟩
  · intro edges u
    exact List.nodup_dedup _

/-- Relation on result rows for `ORDER BY influentialFollowerCount DESC`. -/
def byCountDesc (a b : Nat × Nat) : Prop := b.2 ≤ a.2

instance : DecidableRel byCountDesc := fun a b => inferInstanceAs (Decidable (b.2 ≤ a.2))

instance : IsTotal (Nat × Nat) byCountDesc := ⟨fun a b => Nat.le_total b.2 a.2⟩

instance : IsTrans (Nat × Nat) byCountDesc := ⟨fun _ _ _ h1 h2 => Nat.le_trans h2 h1⟩

/-- The rows of `MATCH (follower)-[:FOLLOWS]->(u) WHERE
size((follower)<-[:FOLLOWS]-()) >= $minFollowers`: the follow edges whose
follower is itself followed by at least `minFollowers` users. -/
def qualifyingEdges (edges : List (Nat × Nat)) (minFollowers : Nat) : List (Nat × Nat) :=
  edges.filter (fun e => decide (minFollowers ≤ inDegree edges e.1))

/-- Embedding of `_get_influential_followers` (neo4j_social.py lines 152-173).
The `WITH u, count(follower)` aggregation groups the qualifying rows by the
followee `u` (groups listed in first-encounter order); the final `WHERE`
keeps counts `≥ $minFollowers` and `ORDER BY ... DESC` sorts by count
descending (a stable sort, so tied groups stay in encounter order — the
query itself specifies no tie order).  `groupCount` is the `count(follower)`
of one group: the number of qualifying rows whose followee is `u`. -/
def groupCount (edges : List (Nat × Nat)) (minFollowers u : Nat) : Nat :=
  ((qualifyingEdges edges minFollowers).filter (fun e => e.2 == u)).length

def influentialFollowers (edges : List (Nat × Nat)) (minFollowers : Nat) : List (Nat × Nat) :=
  ((((qualifyingEdges edges minFollowers).map Prod.snd).dedup.map
      (fun u => (u, groupCount edges minFollowers u))).filter
    (fun p => decide (minFollowers ≤ p.2))).insertionSort byCountDesc

/-- The distinct followers of `u` (the users `f` with an edge `f → u`). -/
def followersOf (edges : List (Nat × Nat)) (u : Nat) : List Nat :=
  ((edges.filter (fun e => e.2 == u)).map Prod.fst).dedup

/-- The ordering the claim asserts: count descending, ties by ascending key. -/
def byCountDescKeyAsc (a b : Nat × Nat) : Prop := b.2 < a.2 ∨ (a.2 = b.2 ∧ a.1 < b.1)

instance : DecidableRel byCountDescKeyAsc := fun a b =>
  inferInstanceAs (Decidable (b.2 < a.2 ∨ (a.2 = b.2 ∧ a.1 < b.1)))

example : influentialFollowers [(1,20),(2,10),(3,1),(4,2)] 1 = [(20,1),(10,1)] := by decide

example : influentialFollowers [(1,2),(2,1)] 1 = [(2,1),(1,1)] := by decide

lemma followersOf_nodup_map (edges : List (Nat × Nat)) (u : Nat) (h : edges.Nodup) :
    ((edges.filter (fun e => e.2 == u)).map Prod.fst).Nodup := by
  refine List.Nodup.map_on ?_ (h.filter _)
  intro x hx y hy hxy
  have hx2 : x.2 = u := by simpa using (List.of_mem_filter hx)
  have hy2 : y.2 = u := by simpa using (List.of_mem_filter hy)
  exact Prod.ext hxy (hx2.trans hy2.symm)

lemma qualifying_count_eq (edges : List (Nat × Nat)) (minF u : Nat) (h : edges.Nodup) :
    groupCount edges minF u
      = ((followersOf edges u).filter (fun f => decide (minF ≤ inDegree edges f))).length := by
  rw [groupCount, followersOf, List.Nodup.dedup (followersOf_nodup_map edges u h)]
  rw [qualifyingEdges, List.filter_filter, List.filter_map, List.length_map,
    List.filter_filter]
  apply congrArg
  apply List.filter_congr
  intro e _
  simp [Function.comp, Bool.and_comm]

lemma mem_dedup_snd_iff (edges : List (Nat × Nat)) (minF v : Nat) :
    v ∈ ((qualifyingEdges edges minF).map Prod.snd).dedup ↔
      0 < groupCount edges minF v := by
  rw [List.mem_dedup, List.mem_map, groupCount]
  constructor
  · rintro ⟨e, he, rfl⟩
    exact List.length_pos_of_mem (List.mem_filter.2 ⟨he, by simp⟩)
  · intro hpos
    obtain ⟨e, he⟩ := List.exists_mem_of_length_pos hpos
    have h2 := List.mem_filter.1 he
    exact ⟨e, h2.1, by simpa using h2.2⟩

/-- C2 (amended): `influential_followers(min_followers)` returns exactly the
pairs `(u, c)` with `c` the number of followers of `u` whose own in-degree is
`≥ min_followers`, retained when `min_followers ≤ c` and `0 < c` (a user none
of whose followers qualifies is omitted even when `min_followers = 0`); the
rows are sorted by count descending, each user appearing at most once.  The
relative order of equal counts is not fixed by the source query. -/
theorem influentialFollowers_amended :
    ∀ (edges : List (Nat × Nat)) (minFollowers : Nat), edges.Nodup →
      (∀ u c, (u, c) ∈ influentialFollowers edges minFollowers ↔
        (c = ((followersOf edges u).filter
            (fun f => decide (minFollowers ≤ inDegree edges f))).length
          ∧ minFollowers ≤ c ∧ 0 < c))
      ∧ List.Sorted byCountDesc (influentialFollowers edges minFollowers)
      ∧ ((influentialFollowers edges minFollowers).map Prod.fst).Nodup := by
  intro edges minF h
  refine ⟨?_, ?_, ?_⟩
  · intro u c
    rw [influentialFollowers, List.mem_insertionSort, List.mem_filter]
    simp only [decide_eq_true_eq, List.mem_map]
    constructor
    · rintro ⟨⟨v, hv, heq⟩, hle⟩
      obtain ⟨rfl, rfl⟩ : v = u ∧ groupCount edges minF v = c := by
        simpa [Prod.ext_iff] using heq
      exact ⟨qualifying_count_eq edges minF v h, hle,
        (mem_dedup_snd_iff edges minF v).1 hv⟩
    · rintro ⟨hceq, hle, hpos⟩
      have hc : c = groupCount edges minF u :=
        hceq.trans (qualifying_count_eq edges minF u h).symm
      subst hc
      exact ⟨⟨u, (mem_dedup_snd_iff edges minF u).2 hpos, rfl⟩, hle⟩
  · exact List.sorted_insertionSort byCountDesc _
  · rw [influentialFollowers]
    apply ((List.perm_insertionSort byCountDesc _).map Prod.fst).nodup_iff.2
    have hsub := (List.filter_sublist (l :=
      (((qualifyingEdges edges minF).map Prod.snd).dedup.map
        (fun u => (u, groupCount edges minF u))))
      (p := fun p => decide (minF ≤ p.2))).map Prod.fst
    apply hsub.nodup
    rw [List.map_map]
    have : (Prod.fst ∘ fun u => (u, groupCount edges minF u)) = id := rfl
    rw [this, List.map_id]
    exact List.nodup_dedup _

/-- Witness for C2: the amended theorem applied to the concrete graph
`1 → 2, 2 → 1` with threshold 1. -/
theorem influentialFollowers_amended_witness :
    (2, 1) ∈ influentialFollowers [(1,2),(2,1)] 1 ↔
      (1 = ((followersOf [(1,2),(2,1)] 2).filter
          (fun f => decide (1 ≤ inDegree [(1,2),(2,1)] f))).length
        ∧ 1 ≤ 1 ∧ 0 < 1) :=
  (influentialFollowers_amended [(1,2),(2,1)] 1 (by decide)).1 2 1

/-- Counterexample for C2 as stated: on the graph `1→20, 2→10, 3→1, 4→2`
with threshold 1 the rows `(20,1)` and `(10,1)` tie on count and are emitted
with keys in descending order, so the result is not sorted by count
descending with ties broken by ascending key; and with threshold 0 user 1 of
the graph `1→2` has zero qualifying followers (`c = 0 ≥ 0`) yet is omitted
from the result, contradicting "exactly the pairs". -/
theorem influentialFollowers_claim_false :
    ¬ List.Sorted byCountDescKeyAsc (influentialFollowers [(1,20),(2,10),(3,1),(4,2)] 1)
    ∧ ((1, 0) ∉ influentialFollowers [(1,2)] 0
      ∧ ((followersOf [(1,2)] 1).filter
          (fun f => decide (0 ≤ inDegree [(1,2)] f))).length = 0
      ∧ 0 ≤ 0) := by
  refine ⟨?_, by decide, by decide, by decide⟩
  decide

/-- The `potential_users` list of a follower `f`: all user ids except `f`
(`[uid for uid in user_uuids if uid != follower_uuid]`, neo4j_social.py line
59; postgres.py line 176). -/
def potentialUsers (userIds : List Nat) (f : Nat) : List Nat :=
  userIds.filter (fun uid => uid != f)

/-- Embedding of the edge-generation loop shared by `create_social_graph`
(neo4j_social.py lines 57-64) and `add_followers` (postgres.py lines
174-180): for each user `f`, an out-degree request `deg f` (the
`random.randint` draw) is clamped to the number of potential followees and
`sample f potential k` (the `random.sample` draw) picks the followees; each
pick becomes a directed edge `(follower, followee)`.  (`add_followers`
stores the pair in `(followee, follower)` column order; the relation is the
same.) -/
def generatedEdges (userIds : List Nat) (deg : Nat → Nat)
    (sample : Nat → List Nat → Nat → List Nat) : List (Nat × Nat) :=
  userIds.flatMap (fun f =>
    (sample f (potentialUsers userIds f)
      (min (deg f) (potentialUsers userIds f).length)).map (fun t => (f, t)))

/-- Out-degree of `u`: the number of generated edges whose follower is `u`. -/
def outDegree (edges : List (Nat × Nat)) (u : Nat) : Nat :=
  (edges.filter (fun e => e.1 == u)).length

/-- Guarantee of `random.sample(l, k)`: every picked element comes from `l`. -/
def SampleMem (sample : Nat → List Nat → Nat → List Nat) : Prop :=
  ∀ f l k, ∀ x ∈ sample f l k, x ∈ l

/-- Guarantee of `random.sample(l, k)` on a duplicate-free `l`: the picks are
pairwise distinct (sampling is without replacement). -/
def SampleNodup (sample : Nat → List Nat → Nat → List Nat) : Prop :=
  ∀ f l k, l.Nodup → (sample f l k).Nodup

/-- Guarantee of `random.sample(l, k)` for `k ≤ len(l)`: exactly `k` picks. -/
def SampleLen (sample : Nat → List Nat → Nat → List Nat) : Prop :=
  ∀ f l k, k ≤ l.length → (sample f l k).length = k

/-- The deterministic oracle `take k` satisfies the `random.sample`
guarantees used in the witnesses. -/
lemma takeSample_mem : SampleMem (fun _ l k => l.take k) :=
  fun _ l k _x hx => (List.take_sublist k l).mem hx

lemma takeSample_nodup : SampleNodup (fun _ l k => l.take k) :=
  fun _ l k h => (List.take_sublist k l).nodup h

lemma takeSample_len : SampleLen (fun _ l k => l.take k) :=
  fun _ l k hk => by simpa using Nat.min_eq_left hk

lemma mem_potentialUsers {userIds : List Nat} {f t : Nat} :
    t ∈ potentialUsers userIds f ↔ t ∈ userIds ∧ t ≠ f := by
  simp [potentialUsers]

/-- C3: every generated follow edge has `follower ≠ followee`, and each
ordered `(follower, followee)` pair occurs at most once in the emitted edge
list (for any out-degree draws and any sampler with the `random.sample`
without-replacement guarantees, over any duplicate-free id list). -/
theorem generatedEdges_no_selfloop_no_dup :
    ∀ (userIds : List Nat) (deg : Nat → Nat) (sample : Nat → List Nat → Nat → List Nat),
      userIds.Nodup → SampleMem sample → SampleNodup sample →
      (∀ e ∈ generatedEdges userIds deg sample, e.1 ≠ e.2)
      ∧ (generatedEdges userIds deg sample).Nodup := by
  intro userIds deg sample hn hmem hnd
  constructor
  · intro e he
    rw [generatedEdges, List.mem_flatMap] at he
    obtain ⟨f, _, he2⟩ := he
    obtain ⟨t, ht, rfl⟩ := List.mem_map.1 he2
    have : t ≠ f := (mem_potentialUsers.1 (hmem _ _ _ t ht)).2
    exact fun hc => this hc.symm
  · rw [generatedEdges]
    apply List.nodup_flatMap.2
    refine ⟨?_, ?_⟩
    · intro f _
      exact ((hnd f _ _ (hn.filter _)).map (fun a b hab => by simpa using hab))
    · refine List.Pairwise.imp ?_ hn
      intro a b hab
      simp only [Function.onFun]
      intro x hxa hxb
      obtain ⟨t, _, rfl⟩ := List.mem_map.1 hxa
      obtain ⟨t2, _, heq⟩ := List.mem_map.1 hxb
      exact hab (congrArg Prod.fst heq).symm

/-- Witness for C3 at `userIds = [0,1,2]`, out-degree draw 2, `take`-oracle. -/
theorem generatedEdges_no_selfloop_no_dup_witness :
    (generatedEdges [0,1,2] (fun _ => 2) (fun _ l k => l.take k)).Nodup :=
  (generatedEdges_no_selfloop_no_dup [0,1,2] (fun _ => 2) (fun _ l k => l.take k)
    (by decide) takeSample_mem takeSample_nodup).2

lemma potentialUsers_length :
    ∀ (userIds : List Nat) (u : Nat), userIds.Nodup → u ∈ userIds →
      (potentialUsers userIds u).length = userIds.length - 1 := by
  intro userIds
  induction userIds with
  | nil => intro u _ hu; cases hu
  | cons a l ih =>
    intro u hn hu
    obtain ⟨hal, hnl⟩ := List.nodup_cons.1 hn
    rcases List.mem_cons.1 hu with rfl | hul
    · have hfl : l.filter (fun uid => uid != u) = l :=
        List.filter_eq_self.2 (fun x hx => by
          simp only [bne_iff_ne, ne_eq, decide_eq_true_eq]
          exact fun h => hal (h ▸ hx))
      simp [potentialUsers, List.filter_cons, hfl]
    · have hau : (a != u) = true := by
        simp only [bne_iff_ne, ne_eq]
        exact fun h => hal (h ▸ hul)
      have hrec := ih u hnl hul
      have hlpos : 0 < l.length := List.length_pos_of_mem hul
      simp only [potentialUsers, List.filter_cons, hau, if_pos, List.length_cons] at *
      omega

lemma filter_fst_flatMap (body : Nat → List (Nat × Nat))
    (hbody : ∀ f, ∀ e ∈ body f, e.1 = f) :
    ∀ (L : List Nat), L.Nodup → ∀ u : Nat,
      (L.flatMap body).filter (fun e => e.1 == u) = if u ∈ L then body u else [] := by
  intro L
  induction L with
  | nil => intro _ u; simp
  | cons a l ih =>
    intro hn u
    obtain ⟨hal, hnl⟩ := List.nodup_cons.1 hn
    rw [List.flatMap_cons, List.filter_append, ih hnl u]
    by_cases hua : u = a
    · subst hua
      have h1 : (body u).filter (fun e => e.1 == u) = body u :=
        List.filter_eq_self.2 (fun e he => by simp [hbody u e he])
      simp [h1, hal]
    · have h1 : (body a).filter (fun e => e.1 == u) = [] := by
        apply List.filter_eq_nil_iff.2
        intro e he
        simp only [hbody a e he, beq_iff_eq]
        exact fun h => hua h.symm
      simp [h1, hua]

lemma outDegree_generatedEdges (userIds : List Nat) (deg : Nat → Nat)
    (sample : Nat → List Nat → Nat → List Nat) (hn : userIds.Nodup)
    (u : Nat) (hu : u ∈ userIds) :
    outDegree (generatedEdges userIds deg sample) u
      = (sample u (potentialUsers userIds u)
          (min (deg u) (potentialUsers userIds u).length)).length := by
  rw [outDegree, generatedEdges,
    filter_fst_flatMap _ (fun f e he => by obtain ⟨t, _, rfl⟩ := List.mem_map.1 he; rfl)
      userIds hn u,
    if_pos hu, List.length_map]

/-- C4: with `population_size = |userIds|`, out-degree draws in
`[minOut, maxOut]`, `minOut ≤ maxOut < population_size` and
`2 ≤ population_size`, every user's out-degree in the generated edge list
lies in `[minOut, min maxOut (population_size - 1)]`. -/
theorem generatedEdges_outDegree_bounds :
    ∀ (userIds : List Nat) (minOut maxOut : Nat) (deg : Nat → Nat)
      (sample : Nat → List Nat → Nat → List Nat),
      userIds.Nodup → SampleLen sample →
      (∀ f, minOut ≤ deg f ∧ deg f ≤ maxOut) →
      2 ≤ userIds.length → minOut ≤ maxOut → maxOut < userIds.length →
      ∀ u ∈ userIds,
        minOut ≤ outDegree (generatedEdges userIds deg sample) u
        ∧ outDegree (generatedEdges userIds deg sample) u
            ≤ min maxOut (userIds.length - 1) := by
  intro userIds minOut maxOut deg sample hn hlen hdeg hpop hminmax hmaxpop u hu
  have hpl := potentialUsers_length userIds u hn hu
  have hod := outDegree_generatedEdges userIds deg sample hn u hu
  have hslen : (sample u (potentialUsers userIds u)
      (min (deg u) (potentialUsers userIds u).length)).length
        = min (deg u) (potentialUsers userIds u).length :=
    hlen u _ _ (Nat.min_le_right _ _)
  rw [hod, hslen, hpl]
  have h1 := (hdeg u).1
  have h2 := (hdeg u).2
  omega

/-- Witness for C4 at `userIds = [0,1,2]`, bounds `[1,2]`, degree draw 2. -/
theorem generatedEdges_outDegree_bounds_witness :
    1 ≤ outDegree (generatedEdges [0,1,2] (fun _ => 2) (fun _ l k => l.take k)) 0
    ∧ outDegree (generatedEdges [0,1,2] (fun _ => 2) (fun _ l k => l.take k)) 0
        ≤ min 2 (([0,1,2] : List Nat).length - 1) :=
  generatedEdges_outDegree_bounds [0,1,2] 1 2 (fun _ => 2) (fun _ l k => l.take k)
    (by decide) takeSample_len (fun _ => ⟨Nat.succ_le_succ (Nat.zero_le 1), Nat.le_refl 2⟩)
    (by decide) (by decide) (by decide) 0 (by decide)

/-- C9: both endpoints of every generated edge are keys of the same run's
user list (edge generation samples only from the generated id list). -/
theorem generatedEdges_endpoints_in_run :
    ∀ (userIds : List Nat) (deg : Nat → Nat) (sample : Nat → List Nat → Nat → List Nat),
      SampleMem sample →
      ∀ e ∈ generatedEdges userIds deg sample, e.1 ∈ userIds ∧ e.2 ∈ userIds := by
  intro userIds deg sample hmem e he
  rw [generatedEdges, List.mem_flatMap] at he
  obtain ⟨f, hf, he2⟩ := he
  obtain ⟨t, ht, rfl⟩ := List.mem_map.1 he2
  exact ⟨hf, (mem_potentialUsers.1 (hmem _ _ _ t ht)).1⟩

/-- Witness for C9 at the edge `(0, 1)` of a two-user run. -/
theorem generatedEdges_endpoints_in_run_witness :
    (0, 1).1 ∈ ([0, 1] : List Nat) ∧ (0, 1).2 ∈ ([0, 1] : List Nat) :=
  generatedEdges_endpoints_in_run [0, 1] (fun _ => 1) (fun _ l k => l.take k)
    takeSample_mem (0, 1) (by decide)

/-- Embedding of `add_followers` (postgres.py lines 163-184): the only
validation performed is `if len(user_ids) < 2: raise Exception("Not enough
users to create follower relationships")`; otherwise the edge batch is
generated (with the hardcoded `random.randint(5, 20)` draw standing behind
`deg`) and loaded.  No degree-bound check exists anywhere: the request is
clamped via `min(num_to_follow, len(potential_users))` inside
`generatedEdges`. -/
def addFollowers (userIds : List Nat) (deg : Nat → Nat)
    (sample : Nat → List Nat → Nat → List Nat) : Except String (List (Nat × Nat)) :=
  if userIds.length < 2 then
    Except.error "Not enough users to create follower relationships"
  else
    Except.ok (generatedEdges userIds deg sample)

/-- C6 (amended): generation fails (with the "not enough users" error
standing for `InvalidParameter`) iff `population_size < 2`; when at least
two users exist it always succeeds and emits the generated batch — the
degree bounds `0 ≤ min_out_degree ≤ max_out_degree < population_size` are
never validated, out-degree requests being clamped instead. -/
theorem addFollowers_amended :
    ∀ (userIds : List Nat) (deg : Nat → Nat) (sample : Nat → List Nat → Nat → List Nat),
      ((∃ msg, addFollowers userIds deg sample = Except.error msg) ↔ userIds.length < 2)
      ∧ (2 ≤ userIds.length →
          addFollowers userIds deg sample = Except.ok (generatedEdges userIds deg sample)) := by
  intro userIds deg sample
  constructor
  · constructor
    · rintro ⟨msg, hmsg⟩
      by_contra hge
      rw [addFollowers, if_neg hge] at hmsg
      cases hmsg
    · intro hlt
      exact ⟨_, by rw [addFollowers, if_pos hlt]⟩
  · intro hge
    rw [addFollowers, if_neg (by omega)]

/-- Witness for C6: a two-user run succeeds. -/
theorem addFollowers_amended_witness :
    addFollowers [7, 8] (fun _ => 1) (fun _ l k => l.take k)
      = Except.ok (generatedEdges [7, 8] (fun _ => 1) (fun _ l k => l.take k)) :=
  (addFollowers_amended [7, 8] (fun _ => 1) (fun _ l k => l.take k)).2 (by decide)

/-- Counterexample for C6 as stated: with three users and the relational
variant's hardcoded degree range `[5, 20]` the precondition
`max_out_degree < population_size` is violated (`20 ≥ 3`), yet the run does
not fail with `InvalidParameter` — it succeeds, clamping every user's
out-degree to 2. -/
theorem addFollowers_claim_false :
    ¬ (20 < ([100, 200, 300] : List Nat).length)
    ∧ addFollowers [100, 200, 300] (fun _ => 5) (fun _ l k => l.take k)
        = Except.ok [(100,200),(100,300),(200,100),(200,300),(300,100),(300,200)] := by
  exact ⟨by decide, rfl⟩

/-- Embedding of the name-drawing loop of `create_social_graph`
(neo4j_social.py lines 47-49): `user_names = set()` then
`while len(user_names) < num_users: user_names.add(person.full_name())`.
Here `draw i` is the i-th value the attribute source returns (names coded as
naturals), the set is a duplicate-free list in insertion order, and `fuel`
bounds how many loop iterations are observed: `none` means the loop is
still running after `fuel` iterations, `some` that it finished. -/
def collectNamesGo (draw : Nat → Nat) (target : Nat) :
    Nat → Nat → List Nat → Option (List Nat)
  | 0, _, acc => if target ≤ acc.length then some acc else none
  | fuel + 1, i, acc =>
    if target ≤ acc.length then some acc
    else collectNamesGo draw target fuel (i + 1)
      (if draw i ∈ acc then acc else acc ++ [draw i])

def collectNames (draw : Nat → Nat) (target fuel : Nat) : Option (List Nat) :=
  collectNamesGo draw target fuel 0 []

/-- Statement that the name loop is still running after every iteration
bound: it neither finishes nor raises any error. -/
def collectRunsForever (draw : Nat → Nat) (target : Nat) : Prop :=
  ∀ fuel, collectNames draw target fuel = none

lemma collectNamesGo_some (draw : Nat → Nat) (target : Nat) :
    ∀ (fuel i : Nat) (acc l : List Nat), acc.Nodup → acc.length ≤ target →
      collectNamesGo draw target fuel i acc = some l →
      l.Nodup ∧ l.length = target := by
  intro fuel
  induction fuel with
  | zero =>
    intro i acc l hnd hle h
    rw [collectNamesGo] at h
    by_cases hc : target ≤ acc.length
    · rw [if_pos hc] at h
      cases h
      exact ⟨hnd, Nat.le_antisymm hle hc⟩
    · rw [if_neg hc] at h
      cases h
  | succ fuel ih =>
    intro i acc l hnd hle h
    rw [collectNamesGo] at h
    by_cases hc : target ≤ acc.length
    · rw [if_pos hc] at h
      cases h
      exact ⟨hnd, Nat.le_antisymm hle hc⟩
    · rw [if_neg hc] at h
      by_cases hd : draw i ∈ acc
      · rw [if_pos hd] at h
        exact ih (i + 1) acc l hnd hle h
      · rw [if_neg hd] at h
        refine ih (i + 1) (acc ++ [draw i]) l ?_ ?_ h
        · rw [List.nodup_append]
          exact ⟨hnd, List.nodup_singleton _, by
            intro a ha hb
            rw [List.mem_singleton] at hb
            exact hd (hb ▸ ha)⟩
        · rw [List.length_append, List.length_singleton]
          omega

lemma collectNamesGo_const_stuck :
    ∀ (fuel i : Nat), collectNamesGo (fun _ => 0) 2 fuel i [0] = none := by
  intro fuel
  induction fuel with
  | zero => intro i; rfl
  | succ fuel ih =>
    intro i
    rw [collectNamesGo]
    rw [if_neg (by simp), if_pos (by simp)]
    exact ih (i + 1)

/-- C7 (amended): the loop repeatedly draws a name into a set until
`population_size` distinct names are collected, and whenever it finishes it
yields exactly that many distinct names; but no retry bound exists and no
`GenerationExhausted` failure is ever raised — on a source that cannot
yield enough distinct names (here a constant one, target 2) the loop is
still running after every iteration bound, while on an injective source it
finishes. -/
theorem collectNames_amended :
    (∀ (draw : Nat → Nat) (target fuel : Nat) (l : List Nat),
      collectNames draw target fuel = some l → l.Nodup ∧ l.length = target)
    ∧ collectRunsForever (fun _ => 0) 2
    ∧ collectNames (fun i => i) 3 3 = some [0, 1, 2] := by
  refine ⟨?_, ?_, by decide⟩
  · intro draw target fuel l h
    exact collectNamesGo_some draw target fuel 0 [] l List.nodup_nil (Nat.zero_le _) h
  · intro fuel
    cases fuel with
    | zero => rfl
    | succ fuel =>
      rw [collectNames, collectNamesGo]
      rw [if_neg (by simp), if_neg (List.not_mem_nil 0)]
      exact collectNamesGo_const_stuck fuel 1

/-- Witness for C7's amended theorem: an injective source finishing at
target 3 yields 3 distinct names. -/
theorem collectNames_amended_witness :
    ([0, 1, 2] : List Nat).Nodup ∧ ([0, 1, 2] : List Nat).length = 3 :=
  collectNames_amended.1 (fun i => i) 3 3 [0, 1, 2] (by decide)

/-- Counterexample for C7 as stated: on an attribute source that always
returns the same name, collecting 2 distinct names never finishes and never
fails — the `while` loop of `create_social_graph` has no retry bound and no
`GenerationExhausted` exit, so for every iteration bound it is still
running. -/
theorem collectNames_claim_false : collectRunsForever (fun _ => 0) 2 := by
  intro fuel
  cases fuel with
  | zero => rfl
  | succ fuel =>
    rw [collectNames, collectNamesGo]
    rw [if_neg (by simp), if_neg (List.not_mem_nil 0)]
    exact collectNamesGo_const_stuck fuel 1

/-- State of the graph store: the `:User` nodes and `:FOLLOWS` relationships. -/
structure GraphStore where
  users : List Nat
  follows : List (Nat × Nat)
deriving DecidableEq

/-- Effect of `MATCH (n) DETACH DELETE n` (neo4j_social.py line 43): every
node and relationship is removed, whatever the store held. -/
def purgeAll (_store : GraphStore) : GraphStore :=
  { users := [], follows := [] }

/-- Effect of `_bulk_create_users_and_relationships` (neo4j_social.py lines
77-93): the two `UNWIND ... CREATE` statements append the new nodes and
relationships to the store. -/
def bulkCreate (store : GraphStore) (newUsers : List Nat)
    (newEdges : List (Nat × Nat)) : GraphStore :=
  { users := store.users ++ newUsers, follows := store.follows ++ newEdges }

/-- Store effect of one `create_social_graph` run (neo4j_social.py lines
41-69): purge everything, then bulk-load the freshly generated batch. -/
def createSocialGraphRun (prev : GraphStore) (newUsers : List Nat)
    (newEdges : List (Nat × Nat)) : GraphStore :=
  bulkCreate (purgeAll prev) newUsers newEdges

/-- State of the relational store's `followers` table. -/
structure RelStore where
  followers : List (Nat × Nat)
deriving DecidableEq

/-- Store effect of one `add_followers` run (postgres.py lines 181-183):
`COPY followers (user_id, follower_id) FROM STDIN` appends the batch; no
`DELETE`/`TRUNCATE` is issued anywhere in the module. -/
def addFollowersRun (prev : RelStore) (rows : List (Nat × Nat)) : RelStore :=
  { followers := prev.followers ++ rows }

/-- C8 (amended): the graph variant deletes all previously generated
vertices and edges before loading, so after a run the graph store holds
exactly that run's batch regardless of the prior state — re-running is
idempotent with respect to leftovers; the relational variant, however,
appends its follower rows without any purge, so rows of earlier runs
persist. -/
theorem storeAfterRun_amended :
    (∀ (prev : GraphStore) (newUsers : List Nat) (newEdges : List (Nat × Nat)),
      (createSocialGraphRun prev newUsers newEdges).users = newUsers
      ∧ (createSocialGraphRun prev newUsers newEdges).follows = newEdges)
    ∧ (∀ (prev : RelStore) (rows : List (Nat × Nat)),
      (addFollowersRun prev rows).followers = prev.followers ++ rows) :=
  ⟨fun _ newUsers newEdges => ⟨List.nil_append newUsers, List.nil_append newEdges⟩,
    fun _ _ => rfl⟩

/-- Counterexample for C8 as stated: a relational store already holding the
edge `(1,2)` from an earlier run still holds it after a new run that loads
only `(3,4)` — the new state is not exactly the new batch. -/
theorem storeAfterRun_claim_false :
    (addFollowersRun ⟨[(1, 2)]⟩ [(3, 4)]).followers = [(1, 2), (3, 4)]
    ∧ (1, 2) ∈ (addFollowersRun ⟨[(1, 2)]⟩ [(3, 4)]).followers
    ∧ (1, 2) ∉ ([(3, 4)] : List (Nat × Nat)) := by
  exact ⟨rfl, by decide, by decide⟩

/-- Record of one entry of the `positions` array (mongodb.py lines 62-67). -/
structure Position where
  title : String
  company : String
  startDate : String
  endDate : String

/-- Record of one entry of the `education` array (mongodb.py lines 71-77). -/
structure Education where
  university : String
  degree : String
  major : String
  startDate : String
  endDate : String

/-- The resume document (mongodb.py lines 51-56); the relational schema
stores the same data across `users`/`positions`/`education`/`users_skills`
(postgres.py lines 81-118). -/
structure Resume where
  name : String
  positions : List Position
  education : List Education
  skills : List String

/-- Embedding of `load_one_resume` (mongodb.py lines 45-88): the document
starts with empty arrays; `for _ in range(random.randint(1, 3))` appends
`numPositions` position entries (`positionAt i` the i-th generated entry);
exactly one education entry is appended; the skills array is assigned.
`load_data` (postgres.py lines 81-118) emits rows with the same counts per
user. -/
def loadOneResume (name : String) (numPositions : Nat) (positionAt : Nat → Position)
    (edu : Education) (skills : List String) : Resume :=
  { name := name
    positions := (List.range numPositions).map positionAt
    education := [edu]
    skills := skills }

/-- C10: every generated resume holds exactly one education record and
between one and three position records inclusive, the position count being
the `random.randint(1, 3)` draw. -/
theorem loadOneResume_counts :
    ∀ (name : String) (k : Nat) (positionAt : Nat → Position) (edu : Education)
      (skills : List String), 1 ≤ k → k ≤ 3 →
      (loadOneResume name k positionAt edu skills).education.length = 1
      ∧ 1 ≤ (loadOneResume name k positionAt edu skills).positions.length
      ∧ (loadOneResume name k positionAt edu skills).positions.length ≤ 3 := by
  intro name k positionAt edu skills h1 h3
  refine ⟨rfl, ?_, ?_⟩ <;>
    simp only [loadOneResume, List.length_map, List.length_range] <;> omega

/-- Witness for C10 at a concrete two-position resume. -/
theorem loadOneResume_counts_witness :
    (loadOneResume "Alice" 2 (fun _ => ⟨"title", "co", "2010", "2011"⟩)
        ⟨"uni", "deg", "major", "2006", "2007"⟩ ["Python"]).education.length = 1
    ∧ 1 ≤ (loadOneResume "Alice" 2 (fun _ => ⟨"title", "co", "2010", "2011"⟩)
        ⟨"uni", "deg", "major", "2006", "2007"⟩ ["Python"]).positions.length
    ∧ (loadOneResume "Alice" 2 (fun _ => ⟨"title", "co", "2010", "2011"⟩)
        ⟨"uni", "deg", "major", "2006", "2007"⟩ ["Python"]).positions.length ≤ 3 :=
  loadOneResume_counts "Alice" 2 (fun _ => ⟨"title", "co", "2010", "2011"⟩)
    ⟨"uni", "deg", "major", "2006", "2007"⟩ ["Python"] (by decide) (by decide)

/-- Lexicographic (character-by-character) at-most comparison, the string
order by which `$sort: {_id: 1}` ranks the group keys. -/
def charListLe : List Char → List Char → Bool
  | [], _ => true
  | _ :: _, [] => false
  | a :: as, b :: bs => if a < b then true else if b < a then false else charListLe as bs

def skillLe (a b : String) : Prop := charListLe a.data b.data = true

instance : DecidableRel skillLe := fun a b =>
  inferInstanceAs (Decidable (charListLe a.data b.data = true))

lemma charListLe_total : ∀ (as bs : List Char),
    charListLe as bs = true ∨ charListLe bs as = true := by
  intro as
  induction as with
  | nil => intro bs; left; rfl
  | cons a as ih =>
    intro bs
    cases bs with
    | nil => right; rfl
    | cons b bs =>
      rw [charListLe, charListLe]
      by_cases hab : a < b
      · left; rw [if_pos hab]
      · by_cases hba : b < a
        · right; rw [if_pos hba]
        · rw [if_neg hab, if_neg hba, if_neg hba, if_neg hab]
          exact ih bs

lemma charListLe_trans : ∀ (as bs cs : List Char),
    charListLe as bs = true → charListLe bs cs = true → charListLe as cs = true := by
  intro as
  induction as with
  | nil => intro bs cs _ _; rfl
  | cons a as ih =>
    intro bs cs h1 h2
    cases bs with
    | nil => rw [charListLe] at h1; cases h1
    | cons b bs =>
      cases cs with
      | nil => rw [charListLe] at h2; cases h2
      | cons c cs =>
        rw [charListLe] at h1 h2 ⊢
        by_cases hab : a < b
        · by_cases hbc : b < c
          · rw [if_pos (lt_trans hab hbc)]
          · by_cases hcb : c < b
            · rw [if_neg hbc, if_pos hcb] at h2; cases h2
            · have heq : b = c := le_antisymm (not_lt.1 hcb) (not_lt.1 hbc)
              rw [if_pos (heq ▸ hab)]
        · by_cases hba : b < a
          · rw [if_neg hab, if_pos hba] at h1; cases h1
          · have heq : a = b := le_antisymm (not_lt.1 hba) (not_lt.1 hab)
            subst heq
            rw [if_neg hab, if_neg hba] at h1
            by_cases hac : a < c
            · rw [if_pos hac]
            · by_cases hca : c < a
              · rw [if_neg hac, if_pos hca] at h2; cases h2
              · rw [if_neg hac, if_neg hca] at h2 ⊢
                exact ih bs cs h1 h2

instance : IsTotal String skillLe := ⟨fun a b => charListLe_total a.data b.data⟩

instance : IsTrans String skillLe :=
  ⟨fun a b c => charListLe_trans a.data b.data c.data⟩

/-- Embedding of the aggregation pipeline of `summary` (mongodb.py lines
170-197): `$unwind: "$skills"` produces one document per (resume, skill)
occurrence, `$group: {_id: "$skills", count: {$sum: 1}}` yields one row per
distinct skill valued with the number of unwound documents, and
`$sort: {_id: 1}` orders the rows by skill name ascending. -/
def skillCounts (resumes : List Resume) : List (String × Nat) :=
  let unwound := resumes.flatMap (fun r => r.skills)
  (unwound.dedup.insertionSort skillLe).map (fun s => (s, unwound.count s))

/-- Number of users (resume documents) holding skill `s`. -/
def usersHolding (resumes : List Resume) (s : String) : Nat :=
  (resumes.filter (fun r => decide (s ∈ r.skills))).length

example :
    skillCounts [⟨"u1", [], [], ["Python", "Go"]⟩, ⟨"u2", [], [], ["Python"]⟩]
      = [("Go", 1), ("Python", 2)] := by decide

lemma count_flatMap_skills (resumes : List Resume) (s : String)
    (h : ∀ r ∈ resumes, r.skills.Nodup) :
    (resumes.flatMap (fun r => r.skills)).count s = usersHolding resumes s := by
  induction resumes with
  | nil => rfl
  | cons r rs ih =>
    have hr := h r (List.mem_cons_self r rs)
    have ihrs := ih (fun x hx => h x (List.mem_cons_of_mem r hx))
    rw [List.flatMap_cons, List.count_append, usersHolding, List.filter_cons]
    by_cases hs : s ∈ r.skills
    · rw [if_pos (by simpa using hs), List.count_eq_one_of_mem hr hs, List.length_cons]
      rw [ihrs, usersHolding]
      omega
    · rw [if_neg (by simpa using hs), List.count_eq_zero_of_not_mem hs, ihrs, usersHolding]
      omega

/-- C5: `skill_counts()` maps each skill held by at least one user to the
number of distinct users holding it, omits every skill with no holders
(never emitting a count of 0), and returns entries ordered by skill name
lexicographically ascending; on users {u1: [Python, Go], u2: [Python]} the
result is [("Go", 1), ("Python", 2)]. -/
theorem skillCounts_correct :
    (∀ (resumes : List Resume), (∀ r ∈ resumes, r.skills.Nodup) →
      (∀ s c, ((s, c) ∈ skillCounts resumes ↔ (c = usersHolding resumes s ∧ 0 < c)))
      ∧ (skillCounts resumes).Pairwise (fun a b => skillLe a.1 b.1 ∧ a.1 ≠ b.1))
    ∧ skillCounts [⟨"u1", [], [], ["Python", "Go"]⟩, ⟨"u2", [], [], ["Python"]⟩]
        = [("Go", 1), ("Python", 2)] := by
  refine ⟨?_, by decide⟩
  intro resumes h
  have hcnt : ∀ t, (resumes.flatMap (fun r => r.skills)).count t = usersHolding resumes t :=
    fun t => count_flatMap_skills resumes t h
  constructor
  · intro s c
    simp only [skillCounts, List.mem_map, List.mem_insertionSort, List.mem_dedup]
    constructor
    · rintro ⟨t, ht, heq⟩
      obtain ⟨rfl, rfl⟩ :
          t = s ∧ (resumes.flatMap (fun r => r.skills)).count t = c := by
        simpa [Prod.ext_iff] using heq
      exact ⟨hcnt t, List.count_pos_iff.2 ht⟩
    · rintro ⟨hceq, hpos⟩
      have hs : s ∈ resumes.flatMap (fun r => r.skills) := by
        rw [← List.count_pos_iff, hcnt s, ← hceq]
        exact hpos
      exact ⟨s, hs, Prod.ext rfl ((hcnt s).trans hceq.symm)⟩
  · have hsorted : List.Sorted skillLe
        ((resumes.flatMap (fun r => r.skills)).dedup.insertionSort skillLe) :=
      List.sorted_insertionSort skillLe _
    have hnodup : ((resumes.flatMap (fun r => r.skills)).dedup.insertionSort skillLe).Nodup :=
      ((List.perm_insertionSort skillLe _).nodup_iff).2 (List.nodup_dedup _)
    simp only [skillCounts, List.pairwise_map]
    exact List.Pairwise.imp (fun hab => hab) (hsorted.and hnodup)

/-- Witness for C5 on the two concrete resumes of the scenario. -/
theorem skillCounts_correct_witness :
    ("Go", 1) ∈ skillCounts [⟨"u1", [], [], ["Python", "Go"]⟩, ⟨"u2", [], [], ["Python"]⟩] ↔
      (1 = usersHolding [⟨"u1", [], [], ["Python", "Go"]⟩, ⟨"u2", [], [], ["Python"]⟩] "Go"
        ∧ 0 < 1) :=
  (skillCounts_correct.1 [⟨"u1", [], [], ["Python", "Go"]⟩, ⟨"u2", [], [], ["Python"]⟩]
    (by decide)).1 "Go" 1
